import Mathlib

/-!
Verification of `reconstruction/tv_denoising.py`: isotropic total-variation
denoising of 2-D and 3-D images by FISTA.

Arrays are embedded as real-valued functions on a dependent product of
finite index types, so that one set of definitions covers every rank.
Machine floats are embedded as exact reals; the spec itself states its
identities "exactly (up to floating-point rounding)".
-/

namespace TV

/-- An index into a dense array of rank `r` and shape `shape`: one
coordinate below `shape i` for every axis `i`. -/
abbrev Idx (r : ℕ) (shape : Fin r → ℕ) := (i : Fin r) → Fin (shape i)

/-- A dense real array of rank `r` (the `im` / `img` / `res` arrays of the
source). -/
abbrev Image (r : ℕ) (shape : Fin r → ℕ) := Idx r shape → ℝ

/-- A directional field of shape `(r, d0, d1, ...)`: the leading axis
indexes the `r` directional components (the `grad` arrays of the source). -/
abbrev Field (r : ℕ) (shape : Fin r → ℕ) := Fin r → Image r shape

variable {r : ℕ} {shape : Fin r → ℕ}

/-- The index one step forward along axis `d`.  The bound is clamped so the
function is total; every use site guards it by `(idx d).val + 1 < shape d`,
where the clamp is the identity. -/
def succIdx (d : Fin r) (idx : Idx r shape) : Idx r shape :=
  Function.update idx d ⟨min ((idx d).val + 1) (shape d - 1), by
    have h := (idx d).isLt; omega⟩

/-- The index one step backward along axis `d` (truncated at `0`; every use
site guards it by `0 < (idx d).val`). -/
def predIdx (d : Fin r) (idx : Idx r shape) : Idx r shape :=
  Function.update idx d ⟨(idx d).val - 1, by have h := (idx d).isLt; omega⟩

/-- `gradient(img)` from the source: component `d` is `np.diff(img, axis=d)`
written into the slice that stops one short along axis `d` of an array of
zeros, so the entry at `idx` is `img[idx + e_d] - img[idx]` when
`idx_d + 1 < shape_d` and the zero left by `np.zeros` on the final slice. -/
noncomputable def gradient (img : Image r shape) : Field r shape := fun d idx =>
  if (idx d).val + 1 < shape d then img (succIdx d idx) - img idx else 0

/-- `div(grad)` from the source.  For each axis `d` the source adds
`this_grad[:-1]` into `this_res[:-1]`, subtracts `this_grad[:-2]` from
`this_res[1:-1]` and subtracts `this_grad[-2]` from `this_res[-1]`; for an
axis of length `n ≥ 2` the entry at position `j` therefore receives
`grad[j]` when `j + 1 < n` minus `grad[j-1]` when `0 < j`.  (For an axis of
length `1` the source raises `IndexError` on `this_grad[-2]`; the embedding
extends it by the same closed formula.) -/
noncomputable def div (grad : Field r shape) : Image r shape := fun idx =>
  ∑ d : Fin r,
    ((if (idx d).val + 1 < shape d then grad d idx else 0) -
      (if 0 < (idx d).val then grad d (predIdx d idx) else 0))

/-- The per-grid-point Euclidean norm across the directional components:
`np.sqrt(np.sum(grad ** 2, 0))`. -/
noncomputable def pointNorm (grad : Field r shape) (idx : Idx r shape) : ℝ :=
  Real.sqrt (∑ d : Fin r, grad d idx ^ 2)

/-- `_projector_on_dual(grad)` from the source: every component at a grid
point is divided by `np.maximum(np.sqrt(np.sum(grad ** 2, 0)), 1.)` there. -/
noncomputable def _projector_on_dual (grad : Field r shape) : Field r shape :=
  fun d idx => grad d idx / max (pointNorm grad idx) 1

/-- `dual_gap(im, new, gap, weight)` from the source.  The source fills
`gx`, `gy` (and `gz` when the rank is 3) with the forward differences of
`new` padded by a zero on the last slice of each axis — exactly the
components of `gradient new` — and sums
`np.sqrt(gx ** 2 + gy ** 2 [+ gz ** 2])`, which at each grid point is
`pointNorm (gradient new)`.  The embedding states the formula uniformly in
the rank; the source is defined (and called) at ranks 2 and 3 only, and the
theorems about `dual_gap` carry that hypothesis. -/
noncomputable def dual_gap (im new gap : Image r shape) (weight : ℝ) : ℝ :=
  let im_norm := ∑ idx : Idx r shape, im idx ^ 2
  let tv_new := 2 * weight * ∑ idx : Idx r shape, pointNorm (gradient new) idx
  0.5 / im_norm *
    ((∑ idx : Idx r shape, gap idx ^ 2) + tv_new - im_norm +
      ∑ idx : Idx r shape, new idx ^ 2)

/-- The isotropic-TV seminorm exactly as the specification words it: the
sum over grid points of the Euclidean norm of the forward finite
differences of the image, zero-padded at the last index of each axis. -/
noncomputable def tv_spec (x : Image r shape) : ℝ :=
  ∑ idx : Idx r shape,
    Real.sqrt (∑ d : Fin r,
      (if h : (idx d).val + 1 < shape d then
          x (Function.update idx d ⟨(idx d).val + 1, h⟩) - x idx
        else 0) ^ 2)

/-- The dual-gap formula exactly as the specification words it:
`0.5 / ‖original‖² * (‖gap_field‖² + 2 * weight * TV(candidate) − ‖original‖²
+ ‖candidate‖²)`. -/
noncomputable def dual_gap_spec (im new gap : Image r shape) (weight : ℝ) : ℝ :=
  0.5 / (∑ idx : Idx r shape, im idx ^ 2) *
    ((∑ idx : Idx r shape, gap idx ^ 2) + 2 * weight * tv_spec new -
      (∑ idx : Idx r shape, im idx ^ 2) + ∑ idx : Idx r shape, new idx ^ 2)

/-- The era's `ndarray.clip(lo, hi)` on one element.  Each bound is applied
by comparison (`if x < lo: lo elif x > hi: hi else x`), so a NaN bound —
which the solver uses to encode "no bound", every comparison with NaN being
false — never fires; a NaN bound is embedded as `none`. -/
noncomputable def npClip (lo hi : Option ℝ) (x : ℝ) : ℝ :=
  match lo, hi with
  | none, none => x
  | some l, none => if x < l then l else x
  | none, some h => if h < x then h else x
  | some l, some h => if x < l then l else if h < x then h else x

/-- `np.max` of an array of reals (via the indexed supremum; the solver
only compares it, never unfolds it). -/
noncomputable def npMax (f : Image r shape) : ℝ := ⨆ idx, f idx

/-- Lines 170-172 of the source, the gradient-ascent step on the dual:
`grad_tmp = gradient(negated_output); grad_tmp *= 1. / (lipschitz_constant
* weight); grad_aux += grad_tmp`. -/
noncomputable def dual_ascent (weight L : ℝ) (negated_output : Image r shape)
    (grad_aux : Field r shape) : Field r shape :=
  fun d idx => grad_aux d idx + 1 / (L * weight) * gradient negated_output d idx

/-- The two failure modes of `tv_denoise_fista`: the explicit `ValueError`
for ranks outside 2 and 3, and the Python `NameError` on line 206 when the
loop body never ran and `gap` was never assigned. -/
inductive FistaError where
  | dimensionality : FistaError
  | unboundGap : FistaError
deriving DecidableEq

/-- The keyword arguments of `tv_denoise_fista` (`verbose` only prints and
is omitted). -/
structure FistaConfig where
  weight : ℝ
  eps : ℝ
  n_iter_max : ℕ
  check_gap_frequency : ℕ
  val_min : Option ℝ
  val_max : Option ℝ

/-- The state carried by the `while` loop of `tv_denoise_fista`.  `gap` is
an `Option` because Python leaves the name unbound until the first loop
iteration assigns it. -/
structure FistaState (r : ℕ) (shape : Fin r → ℕ) where
  grad_im : Field r shape
  grad_aux : Field r shape
  t : ℝ
  gap : Option (Image r shape)
  negated_output : Image r shape
  negated_output_old : Image r shape
  i : ℕ

/-- One iteration of the `while` loop (lines 170-204).  The returned `Bool`
is `false` exactly when the iteration ends in `break`; on `break`, `i` is
not incremented and (in the constrained branch) the snapshot is not
updated, as in the source. -/
noncomputable def fistaBody (im : Image r shape) (cfg : FistaConfig) (L : ℝ)
    (s : FistaState r shape) : FistaState r shape × Bool :=
  let grad_tmp := _projector_on_dual (dual_ascent cfg.weight L s.negated_output s.grad_aux)
  let t_new := 1 / 2 * (1 + Real.sqrt (1 + 4 * s.t ^ 2))
  let t_factor := (s.t - 1) / t_new
  let grad_aux2 : Field r shape := fun d idx =>
    (1 + t_factor) * grad_tmp d idx - t_factor * s.grad_im d idx
  let gap : Image r shape := fun idx => cfg.weight * div grad_tmp idx
  let bounds := cfg.val_min.isSome || cfg.val_max.isSome
  let negated_output2 : Image r shape :=
    if bounds then
      fun idx => npClip (cfg.val_max.map Neg.neg) (cfg.val_min.map Neg.neg) (gap idx - im idx)
    else fun idx => gap idx - im idx
  let sb : FistaState r shape :=
    { grad_im := grad_tmp, grad_aux := grad_aux2, t := t_new, gap := some gap,
      negated_output := negated_output2, negated_output_old := s.negated_output_old,
      i := s.i }
  if s.i % cfg.check_gap_frequency = 0 then
    if bounds then
      let diff := npMax (fun idx => |s.negated_output_old idx - negated_output2 idx|) /
        npMax (fun idx => |negated_output2 idx|)
      if diff < cfg.eps then (sb, false)
      else ({ sb with negated_output_old := negated_output2, i := s.i + 1 }, true)
    else
      let dgap := dual_gap im (fun idx => -negated_output2 idx) gap cfg.weight
      if dgap < cfg.eps then (sb, false) else ({ sb with i := s.i + 1 }, true)
  else ({ sb with i := s.i + 1 }, true)

/-- The `while i < n_iter_max` loop: since `i` starts at `0` and each
non-breaking iteration increments it by one, the loop runs at most
`n_iter_max` times, here counted down as fuel. -/
noncomputable def fistaLoop (im : Image r shape) (cfg : FistaConfig) (L : ℝ) :
    ℕ → FistaState r shape → FistaState r shape
  | 0, s => s
  | n + 1, s =>
    let bs := fistaBody im cfg L s
    if bs.2 then fistaLoop im cfg L n bs.1 else bs.1

/-- Lines 147-154: the fixed Lipschitz upper bound, `9` at rank 2 and `12`
at rank 3; any other rank raises
`ValueError('Cannot compute TV for images that are not 2D or 3D')`. -/
noncomputable def lipschitz_constant (rank : ℕ) : Option ℝ :=
  if rank = 2 then some 9 else if rank = 3 then some 12 else none

/-- Lines 142-168: the state before the first iteration.  `grad_im` and
`grad_aux` are arrays of zeros, `t = 1`, the Python name `gap` is still
unbound, and `negated_output` (with its snapshot) is `-input_img`. -/
noncomputable def fistaInit (im : Image r shape) : FistaState r shape :=
  { grad_im := fun _ _ => 0, grad_aux := fun _ _ => 0, t := 1, gap := none,
    negated_output := fun idx => -im idx, negated_output_old := fun idx => -im idx,
    i := 0 }

/-- Lines 205-209: `output = input_img - gap`, clipped into
`[val_min, val_max]` when a bound was supplied.  Reading `gap` when no loop
iteration ever assigned it is Python's `NameError`. -/
noncomputable def fistaFinal (im : Image r shape) (cfg : FistaConfig)
    (s : FistaState r shape) : Except FistaError (Image r shape) :=
  match s.gap with
  | none => .error .unboundGap
  | some gap =>
    if cfg.val_min.isSome || cfg.val_max.isSome then
      .ok fun idx => npClip cfg.val_min cfg.val_max (im idx - gap idx)
    else
      .ok fun idx => im idx - gap idx

/-- `tv_denoise_fista` from the source, for an input already of floating
dtype (the embedding carries exact reals, so the `astype` coercion on line
141 is the identity).  `negated_val_min` / `negated_val_max` are the NaN-
encoded clipping bounds `-val_min` / `-val_max`, embedded as `Option`s. -/
noncomputable def tv_denoise_fista (im : Image r shape) (cfg : FistaConfig) :
    Except FistaError (Image r shape) :=
  match lipschitz_constant r with
  | none => .error .dimensionality
  | some L => fistaFinal im cfg (fistaLoop im cfg L cfg.n_iter_max (fistaInit im))

/-! Concrete inputs used by the witnesses and counterexamples below. -/

/-- The constant shape `(2, 2)`: the smallest 2-D grid on which every axis
has length at least 2 (so `div`, which reads `this_grad[-2]`, is defined on
it in the source as well). -/
abbrev shape2 : Fin 2 → ℕ := fun _ => 2

/-- The constant shape `(1, 1)`: a single-pixel 2-D grid. -/
abbrev shape1 : Fin 2 → ℕ := fun _ => 1

/-- The origin of the `(2, 2)` grid. -/
def idx00 : Idx 2 shape2 := fun _ => 0

/-- The grid point of the `(2, 2)` grid with coordinate `1` on axis `0`
(the last slice along axis `0`). -/
def idx10 : Idx 2 shape2 := fun i => if i.val = 0 then 1 else 0

/-- The unique point of the `(1, 1)` grid. -/
def idxP : Idx 2 shape1 := fun _ => 0

/-- The `(2, 2)` image of zeros. -/
noncomputable def zeroImage2 : Image 2 shape2 := fun _ => 0

/-- A `(2, 2)` image ramping along axis `0`. -/
noncomputable def xramp : Image 2 shape2 := fun idx => ((idx 0).val : ℝ)

/-- The negation of `xramp`, playing the role of the solver input `image`
in the counterexample to the sign of the dual ascent step. -/
noncomputable def image0 : Image 2 shape2 := fun idx => -((idx 0).val : ℝ)

/-- A zero primal residual, playing the role of `gap` in the same
counterexample (so that `gap0 - image0 = xramp` pointwise). -/
noncomputable def gap0 : Image 2 shape2 := fun _ => 0

/-- The zero directional field on the `(2, 2)` grid. -/
noncomputable def zeroField2 : Field 2 shape2 := fun _ _ => 0

/-- The one-pixel image with value `1` (nonzero norm). -/
noncomputable def oneImage1 : Image 2 shape1 := fun _ => 1

/-- The one-pixel image with value `0`. -/
noncomputable def zeroImage1 : Image 2 shape1 := fun _ => 0

/-- The zero directional field on the one-pixel grid. -/
noncomputable def zeroField1 : Field 2 shape1 := fun _ _ => 0

/-- A configuration with `n_iter_max = 0` and no bounds: the loop body
never runs. -/
noncomputable def cfg0 : FistaConfig :=
  { weight := 50, eps := 1, n_iter_max := 0, check_gap_frequency := 3,
    val_min := none, val_max := none }

/-- A configuration with one iteration and the box `[0, 1]` supplied. -/
noncomputable def cfgW : FistaConfig :=
  { weight := 1, eps := 1, n_iter_max := 1, check_gap_frequency := 1,
    val_min := some 0, val_max := some 1 }

/-- The output of `tv_denoise_fista zeroImage2 cfgW` (an array of zeros). -/
noncomputable def outW : Image 2 shape2 := fun _ => 0

/-! Index bookkeeping. -/

lemma succIdx_apply_self (d : Fin r) (idx : Idx r shape)
    (h : (idx d).val + 1 < shape d) : ((succIdx d idx) d).val = (idx d).val + 1 := by
  simp only [succIdx, Function.update_same]
  omega

lemma succIdx_apply_ne (d e : Fin r) (idx : Idx r shape) (hne : e ≠ d) :
    (succIdx d idx) e = idx e :=
  Function.update_noteq hne _ _

lemma predIdx_apply_self (d : Fin r) (idx : Idx r shape) :
    ((predIdx d idx) d).val = (idx d).val - 1 := by
  simp only [predIdx, Function.update_same]

lemma predIdx_apply_ne (d e : Fin r) (idx : Idx r shape) (hne : e ≠ d) :
    (predIdx d idx) e = idx e :=
  Function.update_noteq hne _ _

lemma predIdx_succIdx (d : Fin r) (idx : Idx r shape)
    (h : (idx d).val + 1 < shape d) : predIdx d (succIdx d idx) = idx := by
  funext e
  rcases eq_or_ne e d with rfl | hne
  · apply Fin.ext
    rw [predIdx_apply_self, succIdx_apply_self _ _ h]
    omega
  · rw [predIdx_apply_ne _ _ _ hne, succIdx_apply_ne _ _ _ hne]

lemma succIdx_predIdx (d : Fin r) (idx : Idx r shape)
    (h : 0 < (idx d).val) : succIdx d (predIdx d idx) = idx := by
  have hp : ((predIdx d idx) d).val + 1 < shape d := by
    rw [predIdx_apply_self]
    have := (idx d).isLt
    omega
  funext e
  rcases eq_or_ne e d with rfl | hne
  · apply Fin.ext
    rw [succIdx_apply_self _ _ hp, predIdx_apply_self]
    omega
  · rw [succIdx_apply_ne _ _ _ hne, predIdx_apply_ne _ _ _ hne]

lemma succIdx_eq_update (d : Fin r) (idx : Idx r shape)
    (h : (idx d).val + 1 < shape d) :
    succIdx d idx = Function.update idx d ⟨(idx d).val + 1, h⟩ := by
  funext e
  rcases eq_or_ne e d with rfl | hne
  · apply Fin.ext
    rw [succIdx_apply_self _ _ h]
    simp [Function.update_same]
  · rw [succIdx_apply_ne _ _ _ hne, Function.update_noteq hne]

/-! Adjointness of `gradient` and `div`. -/

/-- Summation by parts along one axis: the inner product of the `d`-th
gradient component with the `d`-th field component, against the two
single-axis accumulations `div` makes for axis `d`. -/
lemma axis_adjoint (x : Image r shape) (y : Field r shape) (d : Fin r) :
    ∑ idx : Idx r shape, gradient x d idx * y d idx =
      ∑ idx : Idx r shape, x idx *
        ((if 0 < (idx d).val then y d (predIdx d idx) else 0) -
          (if (idx d).val + 1 < shape d then y d idx else 0)) := by
  have hsplit :
      ∑ idx : Idx r shape, gradient x d idx * y d idx =
        (∑ idx : Idx r shape,
            if (idx d).val + 1 < shape d then x (succIdx d idx) * y d idx else 0) -
          ∑ idx : Idx r shape,
            if (idx d).val + 1 < shape d then x idx * y d idx else 0 := by
    rw [← Finset.sum_sub_distrib]
    refine Finset.sum_congr rfl fun idx _ => ?_
    simp only [gradient]
    split_ifs with h <;> ring
  have hsplit2 :
      ∑ idx : Idx r shape, x idx *
          ((if 0 < (idx d).val then y d (predIdx d idx) else 0) -
            (if (idx d).val + 1 < shape d then y d idx else 0)) =
        (∑ idx : Idx r shape,
            if 0 < (idx d).val then x idx * y d (predIdx d idx) else 0) -
          ∑ idx : Idx r shape,
            if (idx d).val + 1 < shape d then x idx * y d idx else 0 := by
    rw [← Finset.sum_sub_distrib]
    refine Finset.sum_congr rfl fun idx _ => ?_
    split_ifs with h1 h2 <;> ring
  rw [hsplit, hsplit2]
  congr 1
  rw [← Finset.sum_filter, ← Finset.sum_filter]
  refine Finset.sum_nbij' (succIdx d) (predIdx d) ?_ ?_ ?_ ?_ ?_
  · intro a ha
    simp only [Finset.mem_filter, Finset.mem_univ, true_and] at ha ⊢
    rw [succIdx_apply_self _ _ ha]
    omega
  · intro b hb
    simp only [Finset.mem_filter, Finset.mem_univ, true_and] at hb ⊢
    rw [predIdx_apply_self]
    have := (b d).isLt
    omega
  · intro a ha
    simp only [Finset.mem_filter, Finset.mem_univ, true_and] at ha
    exact predIdx_succIdx d a ha
  · intro b hb
    simp only [Finset.mem_filter, Finset.mem_univ, true_and] at hb
    exact succIdx_predIdx d b hb
  · intro a ha
    simp only [Finset.mem_filter, Finset.mem_univ, true_and] at ha
    rw [predIdx_succIdx d a ha]

/-- The full adjointness identity, shared by the claims below. -/
lemma sum_gradient_mul (x : Image r shape) (y : Field r shape) :
    ∑ d : Fin r, ∑ idx : Idx r shape, gradient x d idx * y d idx =
      -∑ idx : Idx r shape, x idx * div y idx := by
  calc
    ∑ d : Fin r, ∑ idx : Idx r shape, gradient x d idx * y d idx
        = ∑ d : Fin r, ∑ idx : Idx r shape, x idx *
            ((if 0 < (idx d).val then y d (predIdx d idx) else 0) -
              (if (idx d).val + 1 < shape d then y d idx else 0)) :=
      Finset.sum_congr rfl fun d _ => axis_adjoint x y d
    _ = ∑ idx : Idx r shape, ∑ d : Fin r, x idx *
            ((if 0 < (idx d).val then y d (predIdx d idx) else 0) -
              (if (idx d).val + 1 < shape d then y d idx else 0)) :=
      Finset.sum_comm
    _ = ∑ idx : Idx r shape, -(x idx * div y idx) :=
      Finset.sum_congr rfl fun idx _ => by
        simp only [div, Finset.mul_sum, ← Finset.sum_neg_distrib]
        exact Finset.sum_congr rfl fun e _ => by ring
    _ = -∑ idx : Idx r shape, x idx * div y idx := by
      rw [Finset.sum_neg_distrib]

/-! The dual projector. -/

lemma pointNorm_nonneg (g : Field r shape) (idx : Idx r shape) :
    0 ≤ pointNorm g idx := Real.sqrt_nonneg _

lemma max_pointNorm_pos (g : Field r shape) (idx : Idx r shape) :
    (0 : ℝ) < max (pointNorm g idx) 1 :=
  lt_of_lt_of_le zero_lt_one (le_max_right _ _)

lemma pointNorm_proj (g : Field r shape) (idx : Idx r shape) :
    pointNorm (_projector_on_dual g) idx =
      pointNorm g idx / max (pointNorm g idx) 1 := by
  have hm : (0 : ℝ) ≤ max (pointNorm g idx) 1 := (max_pointNorm_pos g idx).le
  have hsum : ∑ d : Fin r, _projector_on_dual g d idx ^ 2 =
      (∑ d : Fin r, g d idx ^ 2) / (max (pointNorm g idx) 1) ^ 2 := by
    rw [Finset.sum_div]
    exact Finset.sum_congr rfl fun d _ =>
      div_pow (g d idx) (max (pointNorm g idx) 1) 2
  show Real.sqrt (∑ d : Fin r, _projector_on_dual g d idx ^ 2) =
      pointNorm g idx / max (pointNorm g idx) 1
  rw [hsum, Real.sqrt_div (Finset.sum_nonneg fun d _ => sq_nonneg _), Real.sqrt_sq hm]
  rfl

lemma proj_pointNorm_le_one (g : Field r shape) (idx : Idx r shape) :
    pointNorm (_projector_on_dual g) idx ≤ 1 := by
  rw [pointNorm_proj, div_le_one (max_pointNorm_pos g idx)]
  exact le_max_left _ _

lemma proj_eq_self (g : Field r shape) (idx : Idx r shape)
    (h : pointNorm g idx ≤ 1) (d : Fin r) :
    _projector_on_dual g d idx = g d idx := by
  unfold _projector_on_dual
  rw [max_eq_right h, div_one]

/-! The dual gap. -/

lemma gradient_eq_dite (x : Image r shape) (d : Fin r) (idx : Idx r shape) :
    gradient x d idx =
      if h : (idx d).val + 1 < shape d then
        x (Function.update idx d ⟨(idx d).val + 1, h⟩) - x idx
      else 0 := by
  rw [gradient]
  split_ifs with h
  · rw [succIdx_eq_update d idx h]
  · rfl

/-- Pointwise Cauchy-Schwarz bound: minus the inner product of the
components of `g` and `z` at one grid point is at most the point norm of
`g` there, provided `z` lies in the unit ball there. -/
lemma neg_sum_mul_le_pointNorm (g z : Field r shape) (idx : Idx r shape)
    (hz : pointNorm z idx ≤ 1) :
    -∑ d : Fin r, g d idx * z d idx ≤ pointNorm g idx := by
  have h1 : -∑ d : Fin r, g d idx * z d idx =
      ∑ d : Fin r, (-g d idx) * z d idx := by
    rw [← Finset.sum_neg_distrib]
    exact Finset.sum_congr rfl fun d _ => by ring
  have h2 := Real.sum_mul_le_sqrt_mul_sqrt Finset.univ
    (fun d => -g d idx) (fun d => z d idx)
  simp only [neg_sq] at h2
  calc
    -∑ d : Fin r, g d idx * z d idx = ∑ d : Fin r, (-g d idx) * z d idx := h1
    _ ≤ Real.sqrt (∑ d : Fin r, g d idx ^ 2) * Real.sqrt (∑ d : Fin r, z d idx ^ 2) := h2
    _ = pointNorm g idx * pointNorm z idx := rfl
    _ ≤ pointNorm g idx * 1 :=
      mul_le_mul_of_nonneg_left hz (pointNorm_nonneg g idx)
    _ = pointNorm g idx := mul_one _

/-! The era's clip. -/

lemma npClip_lower_le (a : ℝ) (hi : Option ℝ) (x : ℝ)
    (hab : ∀ b, hi = some b → a ≤ b) : a ≤ npClip (some a) hi x := by
  cases hi with
  | none => simp only [npClip]; split_ifs <;> linarith
  | some b =>
    have hb := hab b rfl
    simp only [npClip]
    split_ifs <;> linarith

lemma npClip_le_upper (lo : Option ℝ) (b : ℝ) (x : ℝ)
    (hab : ∀ a, lo = some a → a ≤ b) : npClip lo (some b) x ≤ b := by
  cases lo with
  | none => simp only [npClip]; split_ifs <;> linarith
  | some a =>
    have ha := hab a rfl
    simp only [npClip]
    split_ifs <;> linarith

/-! Small evaluation facts about the solver pieces. -/

lemma gradient_zero :
    gradient (fun _ : Idx r shape => (0 : ℝ)) = fun _ _ => 0 := by
  funext d idx
  unfold gradient
  split_ifs <;> simp

lemma proj_zero :
    _projector_on_dual (fun _ _ => (0 : ℝ) : Field r shape) = fun _ _ => 0 := by
  funext d idx
  unfold _projector_on_dual
  exact zero_div _

lemma div_zero_field :
    div (fun _ _ => (0 : ℝ) : Field r shape) = fun _ => 0 := by
  funext idx
  unfold div
  simp

/-- Whatever branch an iteration takes, the state it hands on carries
`gap = weight * div(projected)` with `projected` the projection of the
ascended momentum. -/
lemma fistaBody_gap (im : Image r shape) (cfg : FistaConfig) (L : ℝ)
    (s : FistaState r shape) :
    ((fistaBody im cfg L s).1).gap =
      some fun idx => cfg.weight *
        div (_projector_on_dual (dual_ascent cfg.weight L s.negated_output s.grad_aux)) idx := by
  simp only [fistaBody]
  split_ifs <;> rfl

/-- Whatever branch an iteration takes, `grad_im` becomes the projection
of the ascended momentum. -/
lemma fistaBody_grad_im (im : Image r shape) (cfg : FistaConfig) (L : ℝ)
    (s : FistaState r shape) :
    ((fistaBody im cfg L s).1).grad_im =
      _projector_on_dual (dual_ascent cfg.weight L s.negated_output s.grad_aux) := by
  simp only [fistaBody]
  split_ifs <;> rfl

lemma fistaLoop_zero (im : Image r shape) (cfg : FistaConfig) (L : ℝ)
    (s : FistaState r shape) : fistaLoop im cfg L 0 s = s := rfl

lemma fistaLoop_succ (im : Image r shape) (cfg : FistaConfig) (L : ℝ)
    (n : ℕ) (s : FistaState r shape) :
    fistaLoop im cfg L (n + 1) s =
      if (fistaBody im cfg L s).2 then fistaLoop im cfg L n (fistaBody im cfg L s).1
      else (fistaBody im cfg L s).1 := rfl

lemma fistaLoop_one (im : Image r shape) (cfg : FistaConfig) (L : ℝ)
    (s : FistaState r shape) :
    fistaLoop im cfg L 1 s = (fistaBody im cfg L s).1 := by
  rw [show (1 : ℕ) = 0 + 1 from rfl, fistaLoop_succ]
  rw [fistaLoop_zero]
  exact ite_self _

lemma fistaFinal_of_gap (im : Image r shape) (cfg : FistaConfig)
    (s : FistaState r shape) (G : Image r shape) (h : s.gap = some G) :
    fistaFinal im cfg s =
      if cfg.val_min.isSome || cfg.val_max.isSome then
        .ok fun idx => npClip cfg.val_min cfg.val_max (im idx - G idx)
      else .ok fun idx => im idx - G idx := by
  unfold fistaFinal
  rw [h]

lemma fistaFinal_ne_dimensionality (im : Image r shape) (cfg : FistaConfig)
    (s : FistaState r shape) :
    fistaFinal im cfg s ≠ .error .dimensionality := by
  unfold fistaFinal
  cases s.gap with
  | none =>
    intro h
    exact FistaError.noConfusion (Except.error.inj h)
  | some G =>
    split_ifs <;> intro h <;> exact Except.noConfusion h

lemma lipschitz_constant_none_iff (n : ℕ) :
    lipschitz_constant n = none ↔ ¬(n = 2 ∨ n = 3) := by
  unfold lipschitz_constant
  rcases eq_or_ne n 2 with h2 | h2
  · simp [h2]
  · rcases eq_or_ne n 3 with h3 | h3
    · simp [h2, h3]
    · simp [h2, h3]

lemma lipschitz_constant_some (n : ℕ) (L : ℝ)
    (h : lipschitz_constant n = some L) : n = 2 ∨ n = 3 := by
  by_contra hc
  rw [(lipschitz_constant_none_iff n).mpr hc] at h
  exact Option.noConfusion h

/-- Whatever branch the final clip takes, a supplied bound is enforced on
every element of an `.ok` result (the two-sided case needing
`val_min ≤ val_max`). -/
lemma fistaFinal_bounds (im : Image r shape) (cfg : FistaConfig)
    (s : FistaState r shape) (out : Image r shape)
    (h : fistaFinal im cfg s = .ok out)
    (hcons : ∀ a b, cfg.val_min = some a → cfg.val_max = some b → a ≤ b)
    (idx : Idx r shape) :
    (∀ a, cfg.val_min = some a → a ≤ out idx) ∧
      (∀ b, cfg.val_max = some b → out idx ≤ b) := by
  unfold fistaFinal at h
  cases hg : s.gap with
  | none =>
    rw [hg] at h
    exact Except.noConfusion h
  | some G =>
    rw [hg] at h
    replace h :
        (if (cfg.val_min.isSome || cfg.val_max.isSome) = true then
            Except.ok (fun idx => npClip cfg.val_min cfg.val_max (im idx - G idx))
          else Except.ok fun idx => im idx - G idx) =
          (Except.ok out : Except FistaError (Image r shape)) := h
    by_cases hb : (cfg.val_min.isSome || cfg.val_max.isSome) = true
    · rw [if_pos hb] at h
      have hout : out = fun idx => npClip cfg.val_min cfg.val_max (im idx - G idx) :=
        (Except.ok.inj h).symm
      subst hout
      constructor
      · intro a ha
        rw [ha]
        exact npClip_lower_le a cfg.val_max _ fun b hb2 => hcons a b ha hb2
      · intro b hbd
        rw [hbd]
        exact npClip_le_upper cfg.val_min b _ fun a ha2 => hcons a b ha2 hbd
    · rw [if_neg hb] at h
      have hmin : cfg.val_min = none := by
        cases hmn : cfg.val_min with
        | none => rfl
        | some a => rw [hmn] at hb; simp at hb
      have hmax : cfg.val_max = none := by
        cases hmx : cfg.val_max with
        | none => rfl
        | some b => rw [hmx] at hb; simp at hb
      constructor
      · intro a ha
        rw [hmin] at ha
        exact Option.noConfusion ha
      · intro b hbd
        rw [hmax] at hbd
        exact Option.noConfusion hbd

/-! Evaluation of one whole solver run on the zero image with the box
`[0, 1]` supplied and a single iteration. -/

lemma dual_ascent_init :
    dual_ascent cfgW.weight 9 (fistaInit zeroImage2).negated_output
      (fistaInit zeroImage2).grad_aux = (fun _ _ => 0 : Field 2 shape2) := by
  funext d idx
  simp [dual_ascent, fistaInit, zeroImage2, gradient_zero]

lemma tvW_gap :
    (fistaLoop zeroImage2 cfgW 9 cfgW.n_iter_max (fistaInit zeroImage2)).gap =
      some outW := by
  rw [show cfgW.n_iter_max = 1 from rfl, fistaLoop_one, fistaBody_gap]
  congr 1
  funext idx
  rw [show cfgW.weight * div (_projector_on_dual (dual_ascent cfgW.weight 9
      (fistaInit zeroImage2).negated_output (fistaInit zeroImage2).grad_aux)) idx =
    cfgW.weight * div (_projector_on_dual (fun _ _ => 0 : Field 2 shape2)) idx from by
      rw [dual_ascent_init]]
  rw [proj_zero, div_zero_field]
  simp [outW]

lemma tvW_eval : tv_denoise_fista zeroImage2 cfgW = .ok outW := by
  have h : tv_denoise_fista zeroImage2 cfgW =
      fistaFinal zeroImage2 cfgW
        (fistaLoop zeroImage2 cfgW 9 cfgW.n_iter_max (fistaInit zeroImage2)) := rfl
  rw [h, fistaFinal_of_gap _ _ _ _ tvW_gap,
    if_pos (show (cfgW.val_min.isSome || cfgW.val_max.isSome) = true from rfl)]
  congr 1
  funext idx
  show npClip cfgW.val_min cfgW.val_max (zeroImage2 idx - outW idx) = outW idx
  norm_num [npClip, cfgW, zeroImage2, outW]

/-! Evaluation facts on the one-pixel grid. -/

lemma gradient_shape1 (x : Image 2 shape1) : gradient x = fun _ _ => 0 := by
  funext d idx
  have h1 : shape1 d = 1 := rfl
  have h2 := (idx d).isLt
  unfold gradient
  rw [if_neg (by omega)]

lemma sum_shape1 (f : Image 2 shape1) : ∑ idx : Idx 2 shape1, f idx = f idxP := by
  have hall : ∀ b : Idx 2 shape1, b = idxP := fun b => Subsingleton.elim b idxP
  exact Finset.sum_eq_single idxP (fun b _ hb => absurd (hall b) hb)
    (fun h => absurd (Finset.mem_univ idxP) h)

/-! The claims. -/

/-- C1: for every image `x` (stated for every rank, so in particular ranks
2 and 3) and every directional field `y` of matching shape, the inner
product of `gradient x` with `y` equals the negation of the inner product
of `x` with `div y`, exactly, in real arithmetic. -/
theorem gradient_div_adjoint (x : Image r shape) (y : Field r shape) :
    ∑ d : Fin r, ∑ idx : Idx r shape, gradient x d idx * y d idx =
      -∑ idx : Idx r shape, x idx * div y idx :=
  sum_gradient_mul x y

/-- C2, counterexample: the dual ascent step of the loop adds
`1/(L*weight)` times the gradient of the negated primal estimate itself
(`gap - image`), not of its negation as the claim states; on a concrete
ramp the two sides differ. -/
theorem dual_ascent_sign_counterexample :
    dual_ascent 1 9 (fun idx => gap0 idx - image0 idx) zeroField2 ≠
      fun d idx => zeroField2 d idx +
        1 / (9 * 1) * gradient (fun idx => -(gap0 idx - image0 idx)) d idx := by
  intro hEq
  have h := congrFun (congrFun hEq 0) idx00
  simp only [dual_ascent, zeroField2, gradient, gap0, image0, succIdx, idx00] at h
  norm_num [Function.update_same] at h

/-- C2, amended: every iteration projects the momentum field ascended by
`dual_ascent`, and `dual_ascent` adds `1/(L*weight) * gradient` of the
negated primal estimate `gap - image` itself — equivalently, it subtracts
`1/(L*weight) * gradient (image - gap)`. -/
theorem dual_ascent_uses_negated_estimate (im2 : Image r shape)
    (cfg : FistaConfig) (L : ℝ) (s : FistaState r shape) (weight Lc : ℝ)
    (image gap : Image r shape) (momentum : Field r shape) :
    (fistaBody im2 cfg L s).1.grad_im =
        _projector_on_dual (dual_ascent cfg.weight L s.negated_output s.grad_aux) ∧
      dual_ascent weight Lc (fun idx => gap idx - image idx) momentum =
        fun d idx => momentum d idx -
          1 / (Lc * weight) * gradient (fun p => image p - gap p) d idx := by
  refine ⟨fistaBody_grad_im im2 cfg L s, ?_⟩
  funext d idx
  simp only [dual_ascent, gradient]
  split_ifs with h
  · ring
  · ring

/-- C3: whenever `tv_denoise_fista` returns an array and the supplied
bounds are consistent, every element is at least `val_min` when that bound
was supplied and at most `val_max` when that bound was supplied, whatever
the iteration count and convergence state. -/
theorem tv_denoise_fista_bounds (im : Image r shape) (cfg : FistaConfig)
    (out : Image r shape) (hok : tv_denoise_fista im cfg = .ok out)
    (hcons : ∀ a b, cfg.val_min = some a → cfg.val_max = some b → a ≤ b)
    (idx : Idx r shape) :
    (∀ a, cfg.val_min = some a → a ≤ out idx) ∧
      (∀ b, cfg.val_max = some b → out idx ≤ b) := by
  unfold tv_denoise_fista at hok
  rcases hL : lipschitz_constant r with _ | L
  · rw [hL] at hok
    exact Except.noConfusion hok
  · rw [hL] at hok
    exact fistaFinal_bounds im cfg _ out hok hcons idx

/-- C3, witness: the one-iteration run of `tv_denoise_fista` on the zero
image with the box `[0, 1]` supplied returns an array whose element at the
origin lies in `[0, 1]`. -/
theorem tv_denoise_fista_bounds_witness :
    (0 : ℝ) ≤ outW idx00 ∧ outW idx00 ≤ 1 := by
  have h := tv_denoise_fista_bounds zeroImage2 cfgW outW tvW_eval
    (fun a b ha hb => by
      have ha2 : (0 : ℝ) = a := Option.some.inj ha
      have hb2 : (1 : ℝ) = b := Option.some.inj hb
      rw [← ha2, ← hb2]
      norm_num) idx00
  exact ⟨h.1 0 rfl, h.2 1 rfl⟩

/-- C4: at the ranks where the source defines it and for an original of
nonzero norm, `dual_gap` computes exactly the specification's formula
`0.5 / ‖original‖² * (‖gap_field‖² + 2 * weight * TV(candidate) −
‖original‖² + ‖candidate‖²)` with `TV` the sum over grid points of the
Euclidean norm of the zero-padded forward differences. -/
theorem dual_gap_matches_spec (hr : r = 2 ∨ r = 3) (im new gap : Image r shape)
    (weight : ℝ) (him : (∑ idx : Idx r shape, im idx ^ 2) ≠ 0) :
    dual_gap im new gap weight = dual_gap_spec im new gap weight := by
  simp only [dual_gap, dual_gap_spec, tv_spec, pointNorm, gradient_eq_dite]

/-- C4, witness: the identity applied at rank 2 on the one-pixel grid with
a unit original. -/
theorem dual_gap_matches_spec_witness :
    dual_gap oneImage1 zeroImage1 zeroImage1 1 =
      dual_gap_spec oneImage1 zeroImage1 zeroImage1 1 :=
  dual_gap_matches_spec (Or.inl rfl) oneImage1 zeroImage1 zeroImage1 1 (by
    rw [sum_shape1]
    norm_num [oneImage1])

/-- C5, counterexample: for arbitrary arguments `dual_gap` is not
nonnegative — with original `1`, candidate `0`, gap field `0` and weight
`1` on the one-pixel grid it evaluates to `-0.5`. -/
theorem dual_gap_negative : dual_gap oneImage1 zeroImage1 zeroImage1 1 < 0 := by
  have hg : gradient zeroImage1 = fun _ _ => 0 := gradient_shape1 zeroImage1
  simp only [dual_gap, hg, pointNorm, sum_shape1]
  norm_num [oneImage1, zeroImage1]

/-- C5, amended: `dual_gap` is nonnegative for the arguments the solver
passes it — a gap field of the form `weight * div z` with `z` in the
pointwise unit ball (as every projected field is), a candidate equal to
`original - gap_field`, a nonnegative weight and an original of nonzero
norm.  This is weak duality for the TV dual. -/
theorem dual_gap_nonneg (im N G : Image r shape) (z : Field r shape)
    (weight : ℝ) (hw : 0 ≤ weight) (hz : ∀ idx, pointNorm z idx ≤ 1)
    (hG : ∀ idx, G idx = weight * div z idx)
    (hN : ∀ idx, N idx = im idx - G idx)
    (him : (∑ idx : Idx r shape, im idx ^ 2) ≠ 0) :
    0 ≤ dual_gap im N G weight := by
  have hadj := sum_gradient_mul N z
  have hswap : (∑ d : Fin r, ∑ idx : Idx r shape, gradient N d idx * z d idx) =
      ∑ idx : Idx r shape, ∑ d : Fin r, gradient N d idx * z d idx :=
    Finset.sum_comm
  have hbound : -(∑ idx : Idx r shape, ∑ d : Fin r, gradient N d idx * z d idx) ≤
      ∑ idx : Idx r shape, pointNorm (gradient N) idx := by
    rw [← Finset.sum_neg_distrib]
    exact Finset.sum_le_sum fun idx _ =>
      neg_sum_mul_le_pointNorm (gradient N) z idx (hz idx)
  have hkey : ∑ idx : Idx r shape, N idx * div z idx ≤
      ∑ idx : Idx r shape, pointNorm (gradient N) idx := by
    linarith [hadj, hswap, hbound]
  have hNG : ∑ idx : Idx r shape, N idx * G idx ≤
      weight * ∑ idx : Idx r shape, pointNorm (gradient N) idx := by
    have h2 : ∑ idx : Idx r shape, N idx * G idx =
        weight * ∑ idx : Idx r shape, N idx * div z idx := by
      rw [Finset.mul_sum]
      exact Finset.sum_congr rfl fun idx _ => by rw [hG idx]; ring
    rw [h2]
    exact mul_le_mul_of_nonneg_left hkey hw
  have hexp : ∑ idx : Idx r shape, N idx ^ 2 =
      (∑ idx : Idx r shape, im idx ^ 2) -
        2 * (∑ idx : Idx r shape, im idx * G idx) +
        ∑ idx : Idx r shape, G idx ^ 2 := by
    have h1 : ∑ idx : Idx r shape, N idx ^ 2 =
        ∑ idx : Idx r shape, (im idx ^ 2 - 2 * (im idx * G idx) + G idx ^ 2) :=
      Finset.sum_congr rfl fun idx _ => by rw [hN idx]; ring
    rw [h1, Finset.sum_add_distrib, Finset.sum_sub_distrib, ← Finset.mul_sum]
  have hNG2 : ∑ idx : Idx r shape, N idx * G idx =
      (∑ idx : Idx r shape, im idx * G idx) - ∑ idx : Idx r shape, G idx ^ 2 := by
    have h1 : ∑ idx : Idx r shape, N idx * G idx =
        ∑ idx : Idx r shape, (im idx * G idx - G idx ^ 2) :=
      Finset.sum_congr rfl fun idx _ => by rw [hN idx]; ring
    rw [h1, Finset.sum_sub_distrib]
  simp only [dual_gap]
  apply mul_nonneg
  · exact div_nonneg (by norm_num) (Finset.sum_nonneg fun idx _ => sq_nonneg _)
  · linarith [hexp, hNG, hNG2]

/-- C5, witness: the amended nonnegativity applied on the one-pixel grid
with `z = 0`, `gap_field = 0 = weight * div 0` and candidate `= original`. -/
theorem dual_gap_nonneg_witness : 0 ≤ dual_gap oneImage1 oneImage1 zeroImage1 1 :=
  dual_gap_nonneg oneImage1 oneImage1 zeroImage1 zeroField1 1 (by norm_num)
    (fun idx => by simp [pointNorm, zeroField1])
    (fun idx => by simp [zeroImage1, div, zeroField1])
    (fun idx => by simp [oneImage1, zeroImage1])
    (by rw [sum_shape1]; norm_num [oneImage1])

/-- C6: for every image of any rank and every axis `k`, the `k`-th
component of `gradient` is the forward difference of the image along `k`
wherever the next index exists, and zero on the last slice along `k` (the
output's shape `(rank, d0, d1, ...)` and its value type are those of
`Field`, by construction). -/
theorem gradient_forward_difference (x : Image r shape) (d : Fin r)
    (idx : Idx r shape) :
    (∀ h : (idx d).val + 1 < shape d,
        gradient x d idx =
          x (Function.update idx d ⟨(idx d).val + 1, h⟩) - x idx) ∧
      ((idx d).val + 1 = shape d → gradient x d idx = 0) := by
  constructor
  · intro h
    rw [gradient_eq_dite, dif_pos h]
  · intro h
    rw [gradient_eq_dite, dif_neg (by omega)]

/-- C6, witness: on the ramp image along axis `0` of the `(2, 2)` grid,
the interior difference is `1` and the last slice carries `0`. -/
theorem gradient_forward_difference_witness :
    gradient xramp 0 idx00 = 1 ∧ gradient xramp 0 idx10 = 0 := by
  constructor
  · have h := (gradient_forward_difference xramp 0 idx00).1 (by decide)
    rw [h]
    norm_num [xramp, idx00, Function.update_same]
  · exact (gradient_forward_difference xramp 0 idx10).2 (by decide)

/-- C7: after `_projector_on_dual` every grid point's Euclidean norm
across the components is at most `1`, and at any point already of norm at
most `1` every component is unchanged. -/
theorem projector_on_dual_spec (g : Field r shape) (idx : Idx r shape) :
    pointNorm (_projector_on_dual g) idx ≤ 1 ∧
      (pointNorm g idx ≤ 1 → ∀ d, _projector_on_dual g d idx = g d idx) :=
  ⟨proj_pointNorm_le_one g idx, fun h d => proj_eq_self g idx h d⟩

/-- C7, witness: the projection of the zero field at the origin of the
`(2, 2)` grid. -/
theorem projector_on_dual_spec_witness :
    pointNorm (_projector_on_dual zeroField2) idx00 ≤ 1 ∧
      ∀ d, _projector_on_dual zeroField2 d idx00 = zeroField2 d idx00 := by
  have h := projector_on_dual_spec zeroField2 idx00
  refine ⟨h.1, h.2 ?_⟩
  simp [pointNorm, zeroField2]

/-- C8: with `n_iter_max = 0` the loop body never runs, the Python name
`gap` is never bound, and line 206 (`output = input_img - gap`) raises
`NameError` instead of returning the estimate; the embedding returns the
corresponding error value. -/
theorem tv_denoise_fista_zero_iterations :
    tv_denoise_fista zeroImage2 cfg0 = .error .unboundGap := rfl

/-- C9: `tv_denoise_fista` produces the unsupported-dimensionality error,
before any loop state is consulted, exactly when the rank is neither 2 nor
3; and the Lipschitz constant it selects is 9 at rank 2 and 12 at rank 3. -/
theorem tv_denoise_fista_rank_check (im : Image r shape) (cfg : FistaConfig) :
    (tv_denoise_fista im cfg = .error .dimensionality ↔ ¬(r = 2 ∨ r = 3)) ∧
      lipschitz_constant 2 = some 9 ∧ lipschitz_constant 3 = some 12 := by
  refine ⟨?_, rfl, rfl⟩
  rcases hL : lipschitz_constant r with _ | L
  · have hnr := (lipschitz_constant_none_iff r).mp hL
    have he : tv_denoise_fista im cfg = .error .dimensionality := by
      unfold tv_denoise_fista
      rw [hL]
    exact ⟨fun _ => hnr, fun _ => he⟩
  · have he : tv_denoise_fista im cfg =
        fistaFinal im cfg (fistaLoop im cfg L cfg.n_iter_max (fistaInit im)) := by
      unfold tv_denoise_fista
      rw [hL]
    constructor
    · intro h
      rw [he] at h
      exact absurd h (fistaFinal_ne_dimensionality _ _ _)
    · intro h
      exact absurd (lipschitz_constant_some r L hL) h

/-- C10: `_projector_on_dual` is idempotent in exact arithmetic. -/
theorem projector_on_dual_idempotent (g : Field r shape) :
    _projector_on_dual (_projector_on_dual g) = _projector_on_dual g := by
  funext d idx
  exact proj_eq_self (_projector_on_dual g) idx (proj_pointNorm_le_one g idx) d

end TV
